import Mathlib

/-!
Verification development for the live-interview audio session component and
the job-search service of the repository.  The definitions below are shallow
embeddings of the TypeScript source: audio samples are modelled as rationals,
byte buffers as lists of naturals below 256, transport text as lists of
character codes, and the React-hook state of `useLiveInterview` as an explicit
record acted on by an event-step function.
-/

namespace LiveInterview

/-! ## PCM codec (source: `floatTo16BitPCM`, lines 5-14, and the inline
decode loop of `onmessage`, lines 124-130).

`DataView.setInt16` converts its number argument with ToInt16: the value is
truncated toward zero and wrapped modulo 2^16 into the signed 16-bit range;
the two bytes are stored little-endian. -/

/-- Clamp of the source line `Math.max(-1, Math.min(1, x))`. -/
def clampSample (x : ℚ) : ℚ := max (-1) (min 1 x)

/-- Truncation toward zero, as ECMAScript ToIntegerOrInfinity performs on a
finite number. -/
def ratTrunc (x : ℚ) : ℤ := if 0 ≤ x then ⌊x⌋ else ⌈x⌉

/-- The scaled value passed to `setInt16`: `s < 0 ? s * 0x8000 : s * 0x7fff`
applied to the clamped sample. -/
def scaledSample (x : ℚ) : ℚ :=
  if clampSample x < 0 then clampSample x * 32768 else clampSample x * 32767

/-- ToInt16 wrapping into an unsigned 16-bit storage value. -/
def toUint16 (n : ℤ) : ℕ := (n % 65536).toNat

/-- Reinterpret an unsigned 16-bit storage value as a signed 16-bit integer,
as `DataView.getInt16` does. -/
def int16OfU (u : ℕ) : ℤ := if u < 32768 then (u : ℤ) else (u : ℤ) - 65536

/-- The unsigned 16-bit storage value the encoder writes for one sample. -/
def pcmU16 (x : ℚ) : ℕ := toUint16 (ratTrunc (scaledSample x))

/-- The signed 16-bit value the encoder stores for one sample (what a
little-endian `getInt16` at its offset would read back). -/
def pcmEncodeSample (x : ℚ) : ℤ := int16OfU (pcmU16 x)

/-- Source function `floatTo16BitPCM`: encode a sequence of samples into a little-endian
byte buffer, two bytes per sample. -/
def floatTo16BitPCM (l : List ℚ) : List ℕ :=
  l.flatMap fun x => [pcmU16 x % 256, pcmU16 x / 256]

/-- Model of `getInt16(offset, true)`: read a little-endian signed 16-bit integer out
of two bytes. -/
def leInt16 (lo hi : ℕ) : ℤ := int16OfU (lo + 256 * hi)

/-- Number of samples the inbound decode loop produces:
`new Float32Array(uint8Array.length / 2)`.  ToIndex truncates a non-integral
length, so an odd byte length yields `⌊length / 2⌋` samples. -/
def numSamples (bytes : List ℕ) : ℕ := bytes.length / 2

/-- The inbound decode loop of `onmessage`:
`float32Array[i] = dataView.getInt16(i * 2, true) / 32768.0`. -/
def decodeSamples (bytes : List ℕ) : List ℚ :=
  (List.range (numSamples bytes)).map fun i =>
    (leInt16 (bytes.getD (2 * i) 0) (bytes.getD (2 * i + 1) 0) : ℚ) / 32768

/-- Duration of the scheduled buffer for a payload:
`createBuffer(1, n, 24000).duration = n / 24000` seconds. -/
def segDur (bytes : List ℕ) : ℚ := (numSamples bytes : ℚ) / 24000

/-- Modelled from the spec (section 4.1): per-sample encoding that rounds the
scaled value toward the sample's sign (up for non-negative samples, down for
negative ones), used to compare the spec's wording with the code. -/
def specEncodeTowardSign (x : ℚ) : ℤ :=
  if clampSample x < 0 then ⌊clampSample x * 32768⌋ else ⌈clampSample x * 32767⌉

/-- Per-sample encoding with truncation toward zero of the scaled clamped
value; the amended description of what the code stores. -/
def specEncodeTowardZero (x : ℚ) : ℤ :=
  if clampSample x < 0 then ⌈clampSample x * 32768⌉ else ⌊clampSample x * 32767⌋

/-! ## Base64 transport (source: `base64ToUint8Array`, lines 16-23, and the
`btoa` of the binary string built in `onaudioprocess`, lines 82-88).
Transport text is modelled as the list of its character codes. -/

/-- Character code of the base64 digit for a 6-bit value, standard alphabet. -/
def b64CharCode (s : ℕ) : ℕ :=
  if s < 26 then 65 + s
  else if s < 52 then 71 + s
  else if s < 62 then s - 4
  else if s = 62 then 43
  else 47

/-- Inverse of the base64 alphabet on character codes; `none` outside it. -/
def b64DecodeCode (n : ℕ) : Option ℕ :=
  if 65 ≤ n ∧ n ≤ 90 then some (n - 65)
  else if 97 ≤ n ∧ n ≤ 122 then some (n - 71)
  else if 48 ≤ n ∧ n ≤ 57 then some (n + 4)
  else if n = 43 then some 62
  else if n = 47 then some 63
  else none

/-- Transport encode (`btoa` of the binary string): the base64 encoding of a byte sequence — standard
base64, groups of three bytes to four characters, `=` (code 61) padding, no
line wrapping. -/
def toTransportText : List ℕ → List ℕ
  | [] => []
  | [a] => [b64CharCode (a / 4), b64CharCode (a % 4 * 16), 61, 61]
  | [a, b] => [b64CharCode (a / 4), b64CharCode (a % 4 * 16 + b / 16),
               b64CharCode (b % 16 * 4), 61]
  | a :: b :: c :: rest =>
      b64CharCode (a / 4) :: b64CharCode (a % 4 * 16 + b / 16) ::
      b64CharCode (b % 16 * 4 + c / 64) :: b64CharCode (c % 64) ::
      toTransportText rest

/-- Source function `base64ToUint8Array`: `atob` followed by `charCodeAt` over the decoded
binary string — standard base64 decoding of four-character groups with `=`
padding admitted only at the end, failing on characters outside the
alphabet. -/
def base64ToUint8Array : List ℕ → Option (List ℕ)
  | [] => some []
  | w :: x :: y :: z :: rest =>
      match b64DecodeCode w, b64DecodeCode x with
      | some s1, some s2 =>
          if y = 61 then
            if z = 61 ∧ rest = [] then some [s1 * 4 + s2 / 16] else none
          else
            match b64DecodeCode y with
            | some s3 =>
                if z = 61 then
                  if rest = [] then
                    some [s1 * 4 + s2 / 16, s2 % 16 * 16 + s3 / 4]
                  else none
                else
                  match b64DecodeCode z with
                  | some s4 =>
                      match base64ToUint8Array rest with
                      | some tail =>
                          some ((s1 * 4 + s2 / 16) :: (s2 % 16 * 16 + s3 / 4) ::
                                (s3 % 4 * 64 + s4) :: tail)
                      | none => none
                  | none => none
            | none => none
      | _, _ => none
  | _ => none

/-! ## Session controller and playback scheduler
(source: the `useLiveInterview` hook, lines 25-205).

The hook's React state (`isConnected`, `isSpeaking`, `error`, `logs`) and
refs (`audioContextRef`, `nextStartTimeRef`, `videoIntervalRef`, the input
graph refs and the video element) are modelled as one record; the
asynchronous callbacks become events acted on by a step function.  Counters
record how many output audio contexts and sessions `connect` has created,
and `scheduled` logs each `source.start(startTime)` call with the samples
of its buffer, so the scheduling behaviour is observable. -/

structure CtrlState where
  isConnected : Bool
  isSpeaking : Bool
  error : Option String
  logs : List String
  /-- Ref `nextStartTimeRef.current`: the playback cursor. -/
  cursor : ℚ
  /-- Ref `audioContextRef.current` exists and has not been closed. -/
  outCtxOpen : Bool
  /-- How many output audio contexts `connect` has created so far. -/
  contextsCreated : ℕ
  /-- How many `ai.live.connect` calls have been initiated so far. -/
  sessionsCreated : ℕ
  /-- Input source and script processor connected (capture graph live). -/
  captureActive : Bool
  /-- The 1 FPS video interval timer is running. -/
  timerActive : Bool
  /-- The video element holds the media stream (`srcObject` non-null). -/
  videoAttached : Bool
  /-- Log of `source.start` calls: scheduled start time and the decoded
  samples of the scheduled buffer, in scheduling order. -/
  scheduled : List (ℚ × List ℚ)
deriving DecidableEq, Repr

/-- The hook's state before any interaction: all refs null, cursor 0. -/
def initState : CtrlState :=
  { isConnected := false, isSpeaking := false, error := none, logs := [],
    cursor := 0, outCtxOpen := false, contextsCreated := 0,
    sessionsCreated := 0, captureActive := false, timerActive := false,
    videoAttached := false, scheduled := [] }

/-- Source function `connect` (lines 40-180), success path up to initiating the session:
clears the error, creates a fresh output audio context (overwriting the
ref), builds the capture graph, attaches the video preview and starts an
`ai.live.connect` call.  The code performs no state check before any of
this. -/
def connectStep (s : CtrlState) : CtrlState :=
  { s with error := none, outCtxOpen := true,
           contextsCreated := s.contextsCreated + 1,
           captureActive := true, videoAttached := true,
           sessionsCreated := s.sessionsCreated + 1 }

/-- The `onopen` callback (lines 74-116): marks connected, logs, and starts
the periodic video timer. -/
def openedStep (s : CtrlState) : CtrlState :=
  { s with isConnected := true,
           logs := s.logs ++ ["Connected to Interviewer"],
           timerActive := true }

/-- The `onmessage` callback for a message carrying inline audio
(lines 117-150), at output-clock time `now` with decoded payload `bytes`:
sets the speaking flag, then — if the output context ref is non-null —
decodes the bytes into samples, schedules them at
`startTime = max(now, cursor)` and advances the cursor by the buffer
duration. -/
def msgStep (now : ℚ) (bytes : List ℕ) (s : CtrlState) : CtrlState :=
  if s.outCtxOpen then
    { s with isSpeaking := true,
             scheduled := s.scheduled ++ [(max now s.cursor, decodeSamples bytes)],
             cursor := max now s.cursor + segDur bytes }
  else
    { s with isSpeaking := true }

/-- A source's `onended` callback (lines 144-148) firing at output-clock
time `now`: clears the speaking flag only when the clock has reached the
cursor. -/
def endedStep (now : ℚ) (s : CtrlState) : CtrlState :=
  if s.cursor ≤ now then { s with isSpeaking := false } else s

/-- The `onclose` callback (lines 151-154). -/
def closedStep (s : CtrlState) : CtrlState :=
  { s with isConnected := false, logs := s.logs ++ ["Connection closed"] }

/-- The `onerror` callback (lines 155-159). -/
def erroredStep (s : CtrlState) : CtrlState :=
  { s with error := some ("Connection error occurred"), isConnected := false }

/-- Source function `disconnect` (lines 182-198): disconnects the capture graph, closes the
output audio context, clears the video timer, stops and detaches the media
stream, then resets `isConnected`, `isSpeaking` and the cursor.  The refs
themselves are not nulled; none of the guarded teardown calls changes the
observable state when the resource is already released. -/
def disconnectStep (s : CtrlState) : CtrlState :=
  { s with captureActive := false, outCtxOpen := false, timerActive := false,
           videoAttached := false, isConnected := false, isSpeaking := false,
           cursor := 0 }

/-- The asynchronous events delivered to the hook's handlers. -/
inductive Ev where
  | connect : Ev
  | opened : Ev
  | message : ℚ → List ℕ → Ev
  | ended : ℚ → Ev
  | closed : Ev
  | errored : Ev
  | disconnect : Ev
deriving DecidableEq, Repr

/-- One event step of the session controller. -/
def step : Ev → CtrlState → CtrlState
  | Ev.connect => connectStep
  | Ev.opened => openedStep
  | Ev.message now bytes => msgStep now bytes
  | Ev.ended now => endedStep now
  | Ev.closed => closedStep
  | Ev.errored => erroredStep
  | Ev.disconnect => disconnectStep

end LiveInterview

namespace GeminiService

/-! ## Job search (source: `src/services/geminiService.ts`, `searchJobs`,
lines 189-220). -/

/-- The `web` field of a grounding chunk; `uri` and `title` are optional. -/
structure WebInfo where
  uri : Option String
  title : Option String
deriving DecidableEq, Repr

/-- A grounding chunk of the response metadata. -/
structure GroundingChunk where
  web : Option WebInfo
deriving DecidableEq, Repr

/-- A job listing as returned to the caller. -/
structure JobListing where
  title : String
  company : String
  location : String
  url : String
deriving DecidableEq, Repr

/-- The filter `c.web?.uri && c.web?.title`: both fields present and truthy
(an empty string is falsy in JavaScript). -/
def hasWebData (c : GroundingChunk) : Bool :=
  match c.web with
  | some w =>
      (match w.uri with
       | some u => decide (u ≠ "")
       | none => false) &&
      (match w.title with
       | some t => decide (t ≠ "")
       | none => false)
  | none => false

/-- The listing built from a qualifying chunk. -/
def listingOfChunk (location : String) (c : GroundingChunk) : JobListing :=
  { title := ((c.web.bind WebInfo.title).getD ("Job Opening")),
    company := "Source: Web",
    location := location,
    url := ((c.web.bind WebInfo.uri).getD ("#")) }

/-- Hexadecimal digit characters, upper case. -/
def hexDigit (n : ℕ) : Char :=
  if n < 10 then Char.ofNat (48 + n) else Char.ofNat (55 + n)

/-- Characters `encodeURIComponent` leaves unescaped. -/
def uriUnreserved (ch : Char) : Bool :=
  ch.isAlphanum || ch ∈ ['-', '_', '.', '!', '~', '*', '\'', '(', ')']

/-- Model of `encodeURIComponent`: percent-encodes every UTF-8 byte of each character
outside the unreserved set. -/
def encodeURIComponent (s : String) : String :=
  String.join (s.toList.map fun ch =>
    if uriUnreserved ch then String.singleton ch
    else String.join (((String.singleton ch).toUTF8.toList).map fun b =>
      ⟨['%', hexDigit (b.toNat / 16), hexDigit (b.toNat % 16)]⟩))

/-- The single fallback listing returned when no chunk qualifies. -/
def fallbackListing (role location : String) : JobListing :=
  { title := role ++ " - Search Results",
    company := "Google Search",
    location := location,
    url := "https://www.google.com/search?q=" ++
             encodeURIComponent (role ++ " jobs") }

/-- Source function `searchJobs`, given the grounding chunks of the model response: keep the
chunks with truthy web uri and title, map them to listings, cap at 6 with
`slice(0, 6)`, and fall back to a single search-link listing when none
qualify. -/
def searchJobs (role location : String) (chunks : List GroundingChunk) :
    List JobListing :=
  let listings := ((chunks.filter hasWebData).map (listingOfChunk location)).take 6
  if listings.isEmpty then [fallbackListing role location] else listings

end GeminiService

namespace LiveInterview

/-! ## Helper lemmas -/

theorem clampSample_mem (x : ℚ) : -1 ≤ clampSample x ∧ clampSample x ≤ 1 := by
  unfold clampSample
  constructor
  · exact le_max_left _ _
  · exact max_le (by norm_num) (min_le_left _ _)

theorem scaledSample_mem (x : ℚ) :
    -32768 ≤ scaledSample x ∧ scaledSample x ≤ 32767 := by
  obtain ⟨h1, h2⟩ := clampSample_mem x
  unfold scaledSample
  split_ifs with hneg
  · constructor <;> nlinarith
  · push_neg at hneg
    constructor <;> nlinarith

theorem ratTrunc_nonneg_eq (x : ℚ) (h : 0 ≤ x) : ratTrunc x = ⌊x⌋ := by
  simp [ratTrunc, h]

theorem ratTrunc_neg_eq (x : ℚ) (h : x < 0) : ratTrunc x = ⌈x⌉ := by
  simp [ratTrunc, not_le.mpr h]

theorem ratTrunc_scaled_mem (x : ℚ) :
    -32768 ≤ ratTrunc (scaledSample x) ∧ ratTrunc (scaledSample x) ≤ 32767 := by
  obtain ⟨h1, h2⟩ := scaledSample_mem x
  unfold ratTrunc
  split_ifs with hpos
  · constructor
    · have : (0 : ℤ) ≤ ⌊scaledSample x⌋ := Int.floor_nonneg.mpr hpos
      omega
    · have : (⌊scaledSample x⌋ : ℤ) ≤ ⌊(32767 : ℚ)⌋ := Int.floor_le_floor h2
      simpa using this
  · push_neg at hpos
    constructor
    · have : (⌈(-32768 : ℚ)⌉ : ℤ) ≤ ⌈scaledSample x⌉ := Int.ceil_le_ceil h1
      simpa using this
    · have : (⌈scaledSample x⌉ : ℤ) ≤ ⌈(0 : ℚ)⌉ := Int.ceil_le_ceil (le_of_lt hpos)
      simp at this
      omega

theorem int16OfU_toUint16 (n : ℤ) (h1 : -32768 ≤ n) (h2 : n ≤ 32767) :
    int16OfU (toUint16 n) = n := by
  simp only [int16OfU, toUint16]
  split_ifs <;> omega

theorem pcmEncodeSample_eq_trunc (x : ℚ) :
    pcmEncodeSample x = ratTrunc (scaledSample x) := by
  obtain ⟨h1, h2⟩ := ratTrunc_scaled_mem x
  exact int16OfU_toUint16 _ h1 h2

theorem pcmU16_lt (x : ℚ) : pcmU16 x < 65536 := by
  unfold pcmU16 toUint16
  omega

theorem leInt16_split (u : ℕ) : leInt16 (u % 256) (u / 256) = int16OfU u := by
  unfold leInt16
  rw [Nat.mod_add_div]

theorem decodeSamples_nil : decodeSamples [] = [] := by
  simp [decodeSamples, numSamples]

theorem decodeSamples_cons2 (b0 b1 : ℕ) (rest : List ℕ) :
    decodeSamples (b0 :: b1 :: rest) =
      ((leInt16 b0 b1 : ℚ) / 32768) :: decodeSamples rest := by
  unfold decodeSamples numSamples
  simp only [List.length_cons]
  have h2 : (rest.length + 1 + 1) / 2 = rest.length / 2 + 1 := by omega
  rw [h2, List.range_succ_eq_map, List.map_cons, List.map_map]
  congr 1

theorem decodeSamples_length (bytes : List ℕ) :
    (decodeSamples bytes).length = bytes.length / 2 := by
  simp [decodeSamples, numSamples]

theorem segDur_nonneg (bytes : List ℕ) : 0 ≤ segDur bytes := by
  unfold segDur
  positivity

theorem clampSample_eq_self (x : ℚ) (h1 : -1 ≤ x) (h2 : x ≤ 1) :
    clampSample x = x := by
  unfold clampSample
  rw [min_eq_right h2, max_eq_right h1]

theorem pcm_sample_err (x : ℚ) (h1 : -1 ≤ x) (h2 : x ≤ 1) :
    |((pcmEncodeSample x : ℚ)) / 32768 - x| < 2 / 32768 := by
  rw [pcmEncodeSample_eq_trunc]
  unfold scaledSample
  rw [clampSample_eq_self x h1 h2]
  by_cases hx : x < 0
  · rw [if_pos hx, ratTrunc_neg_eq _ (mul_neg_of_neg_of_pos hx (by norm_num))]
    have hc1 : (x * 32768 : ℚ) ≤ ⌈x * 32768⌉ := Int.le_ceil _
    have hc2 : ((⌈x * 32768⌉ : ℚ)) < x * 32768 + 1 := Int.ceil_lt_add_one _
    rw [abs_lt]
    constructor <;> linarith
  · push_neg at hx
    rw [if_neg (not_lt.mpr hx),
        ratTrunc_nonneg_eq _ (mul_nonneg hx (by norm_num))]
    have hf1 : ((⌊x * 32767⌋ : ℚ)) ≤ x * 32767 := Int.floor_le _
    have hf2 : (x * 32767 : ℚ) < ⌊x * 32767⌋ + 1 := Int.lt_floor_add_one _
    rw [abs_lt]
    constructor <;> linarith

theorem pcmEncodeSample_eq_towardZero (x : ℚ) :
    pcmEncodeSample x = specEncodeTowardZero x := by
  rw [pcmEncodeSample_eq_trunc]
  unfold scaledSample specEncodeTowardZero
  by_cases h : clampSample x < 0
  · rw [if_pos h, if_pos h,
        ratTrunc_neg_eq _ (mul_neg_of_neg_of_pos h (by norm_num))]
  · rw [if_neg h, if_neg h,
        ratTrunc_nonneg_eq _ (mul_nonneg (not_lt.mp h) (by norm_num))]

theorem floatTo16BitPCM_cons (x : ℚ) (l : List ℚ) :
    floatTo16BitPCM (x :: l) =
      pcmU16 x % 256 :: pcmU16 x / 256 :: floatTo16BitPCM l := by
  simp [floatTo16BitPCM]

theorem floatTo16BitPCM_length (l : List ℚ) :
    (floatTo16BitPCM l).length = 2 * l.length := by
  induction l with
  | nil => rfl
  | cons x l ih =>
      rw [floatTo16BitPCM_cons]
      simp only [List.length_cons, ih]
      omega

theorem decode_encode_eq (l : List ℚ) :
    decodeSamples (floatTo16BitPCM l) =
      l.map fun x => (pcmEncodeSample x : ℚ) / 32768 := by
  induction l with
  | nil => simp [floatTo16BitPCM, decodeSamples_nil]
  | cons x l ih =>
      rw [floatTo16BitPCM_cons, decodeSamples_cons2, leInt16_split, ih]
      rfl

theorem b64DecodeCode_of_code : ∀ s : ℕ, s < 64 →
    b64DecodeCode (b64CharCode s) = some s := by decide

theorem b64CharCode_ne_61 : ∀ s : ℕ, s < 64 → b64CharCode s ≠ 61 := by decide

/-! ## Claim theorems for the codecs -/

/-- C6, counterexample.  The claim says the scaled clamped sample is rounded
toward the sample's sign; the code's `setInt16` truncates toward zero
instead.  At sample 1/2 the scaled value is 16383.5: the code stores 16383,
rounding toward the sign would store 16384. -/
theorem encode_rounding_cex :
    pcmEncodeSample (1/2) = 16383 ∧ specEncodeTowardSign (1/2) = 16384 ∧
    pcmEncodeSample (1/2) ≠ specEncodeTowardSign (1/2) := by
  have hc : clampSample (1/2 : ℚ) = 1/2 :=
    clampSample_eq_self _ (by norm_num) (by norm_num)
  have h1 : pcmEncodeSample (1/2 : ℚ) = 16383 := by
    rw [pcmEncodeSample_eq_trunc]
    unfold scaledSample
    rw [hc, if_neg (by norm_num), ratTrunc_nonneg_eq _ (by norm_num)]
    norm_num
  have h2 : specEncodeTowardSign (1/2 : ℚ) = 16384 := by
    unfold specEncodeTowardSign
    rw [hc, if_neg (by norm_num), Int.ceil_eq_iff]
    constructor <;> norm_num
  exact ⟨h1, h2, by rw [h1, h2]; norm_num⟩

/-- C6, amended.  PCM encode clamps each sample to [-1, 1], scales by 32767
when the clamped value is non-negative and by 32768 when it is negative,
truncates the scaled value toward zero, and stores it as a signed 16-bit
little-endian integer; it is a total function with no failure modes. -/
theorem encode_truncates_toward_zero (x : ℚ) :
    pcmEncodeSample x = specEncodeTowardZero x ∧
    floatTo16BitPCM [x] = [pcmU16 x % 256, pcmU16 x / 256] ∧
    leInt16 (pcmU16 x % 256) (pcmU16 x / 256) = pcmEncodeSample x := by
  refine ⟨pcmEncodeSample_eq_towardZero x, by simp [floatTo16BitPCM], ?_⟩
  rw [leInt16_split]
  rfl

/-- C9.  PCM encode is total and length-preserving: it produces exactly two
bytes per input sample (each a value below 256) for every input, including
samples outside [-1, 1], and every stored 16-bit value lies in
[-32768, 32767]. -/
theorem encode_total_length_preserving (l : List ℚ) :
    (floatTo16BitPCM l).length = 2 * l.length ∧
    (∀ v ∈ floatTo16BitPCM l, v < 256) ∧
    ∀ x ∈ l, -32768 ≤ pcmEncodeSample x ∧ pcmEncodeSample x ≤ 32767 := by
  refine ⟨floatTo16BitPCM_length l, ?_, ?_⟩
  · induction l with
    | nil => simp [floatTo16BitPCM]
    | cons x l ih =>
        rw [floatTo16BitPCM_cons]
        intro v hv
        have hu := pcmU16_lt x
        rcases List.mem_cons.mp hv with h | hv2
        · omega
        · rcases List.mem_cons.mp hv2 with h | h2
          · omega
          · exact ih v h2
  · intro x _
    rw [pcmEncodeSample_eq_trunc]
    exact ratTrunc_scaled_mem x

/-- C9, witness: a sample outside [-1, 1] is still encoded, to two in-range
bytes and an in-range 16-bit value. -/
theorem encode_total_length_preserving_witness :
    (floatTo16BitPCM [(3/2 : ℚ)]).length = 2 * 1 ∧
    ((3/2 : ℚ) ∈ [(3/2 : ℚ)] ∧
      -32768 ≤ pcmEncodeSample (3/2) ∧ pcmEncodeSample (3/2) ≤ 32767) := by
  refine ⟨(encode_total_length_preserving [(3/2 : ℚ)]).1, by simp, ?_⟩
  exact (encode_total_length_preserving [(3/2 : ℚ)]).2.2 _ (by simp)

/-- C7, counterexample.  The claim bounds the per-sample round-trip error by
1/32768; at sample 65533/65534 (inside [-1, 1]) the encoder stores 16383.5
truncated via the 32767 scale, decode divides by 32768, and the error is
about 1.5/32768. -/
theorem pcm_roundtrip_bound_cex :
    (-1 ≤ (65533 : ℚ)/65534 ∧ (65533 : ℚ)/65534 ≤ 1) ∧
    decodeSamples (floatTo16BitPCM [(65533 : ℚ)/65534]) = [(32766 : ℚ)/32768] ∧
    ¬ |((32766 : ℚ)/32768) - 65533/65534| ≤ 1/32768 := by
  have henc : pcmEncodeSample ((65533 : ℚ)/65534) = 32766 := by
    rw [pcmEncodeSample_eq_trunc]
    unfold scaledSample
    rw [clampSample_eq_self _ (by norm_num) (by norm_num), if_neg (by norm_num),
        ratTrunc_nonneg_eq _ (by norm_num)]
    norm_num
  refine ⟨⟨by norm_num, by norm_num⟩, ?_, ?_⟩
  · rw [decode_encode_eq]
    simp [henc]
  · intro hcontra
    rw [abs_le] at hcontra
    obtain ⟨hlo, _⟩ := hcontra
    norm_num at hlo

/-- C7, amended.  For samples in [-1, 1] the round trip preserves length and
each decoded sample differs from the original by strictly less than 2/32768
(up to 1/32768 of truncation plus the 32767-vs-32768 scale mismatch); the
1/32768 bound of the claim fails for samples near 1. -/
theorem pcm_roundtrip_quantization (l : List ℚ)
    (h : ∀ x ∈ l, -1 ≤ x ∧ x ≤ 1) :
    (decodeSamples (floatTo16BitPCM l)).length = l.length ∧
    ∀ i, i < l.length →
      |(decodeSamples (floatTo16BitPCM l)).getD i 0 - l.getD i 0| < 2 / 32768 := by
  rw [decode_encode_eq]
  refine ⟨by simp, ?_⟩
  intro i hi
  have hi2 : i < ((l.map fun x => (pcmEncodeSample x : ℚ) / 32768)).length := by
    simpa using hi
  rw [List.getD_eq_getElem _ _ hi2, List.getD_eq_getElem _ _ hi,
      List.getElem_map]
  exact pcm_sample_err _ (h _ (List.getElem_mem hi)).1 (h _ (List.getElem_mem hi)).2

/-- C7, witness: the amended bound applied to the one-sample list [1/2]. -/
theorem pcm_roundtrip_quantization_witness :
    (decodeSamples (floatTo16BitPCM [(1/2 : ℚ)])).length = 1 ∧
    |(decodeSamples (floatTo16BitPCM [(1/2 : ℚ)])).getD 0 0 - (1/2 : ℚ)| <
      2 / 32768 := by
  have h := pcm_roundtrip_quantization [(1/2 : ℚ)]
    (by intro x hx; simp at hx; rw [hx]; norm_num)
  refine ⟨h.1, ?_⟩
  have h2 := h.2 0 (by norm_num)
  simpa using h2

/-- C8.  Base64 transport round-trip: decoding the transport text produced
by encoding any byte sequence returns exactly that sequence. -/
theorem base64_transport_roundtrip :
    ∀ b : List ℕ, (∀ v ∈ b, v < 256) →
      base64ToUint8Array (toTransportText b) = some b := by
  intro b
  induction b using toTransportText.induct with
  | case1 => intro _; rfl
  | case2 a =>
      intro h
      have ha : a < 256 := h a (by simp)
      have hd1 : b64DecodeCode (b64CharCode (a / 4)) = some (a / 4) :=
        b64DecodeCode_of_code _ (by omega)
      have hd2 : b64DecodeCode (b64CharCode (a % 4 * 16)) = some (a % 4 * 16) :=
        b64DecodeCode_of_code _ (by omega)
      simp only [toTransportText, base64ToUint8Array, hd1, hd2, if_pos rfl,
        and_self, if_true]
      refine congrArg some ?_
      refine List.cons_eq_cons.mpr ⟨by omega, rfl⟩
  | case3 a b =>
      intro h
      have ha : a < 256 := h a (by simp)
      have hb : b < 256 := h b (by simp)
      have hd1 : b64DecodeCode (b64CharCode (a / 4)) = some (a / 4) :=
        b64DecodeCode_of_code _ (by omega)
      have hd2 : b64DecodeCode (b64CharCode (a % 4 * 16 + b / 16)) =
          some (a % 4 * 16 + b / 16) := b64DecodeCode_of_code _ (by omega)
      have hd3 : b64DecodeCode (b64CharCode (b % 16 * 4)) = some (b % 16 * 4) :=
        b64DecodeCode_of_code _ (by omega)
      have hne : b64CharCode (b % 16 * 4) ≠ 61 := b64CharCode_ne_61 _ (by omega)
      simp only [toTransportText, base64ToUint8Array, hd1, hd2, hd3,
        if_neg hne, if_pos rfl, if_true]
      refine congrArg some ?_
      refine List.cons_eq_cons.mpr ⟨by omega, ?_⟩
      refine List.cons_eq_cons.mpr ⟨by omega, rfl⟩
  | case4 a b c rest ih =>
      intro h
      have ha : a < 256 := h a (by simp)
      have hb : b < 256 := h b (by simp)
      have hc : c < 256 := h c (by simp)
      have hrest : base64ToUint8Array (toTransportText rest) = some rest :=
        ih fun v hv => h v (by simp [hv])
      have hd1 : b64DecodeCode (b64CharCode (a / 4)) = some (a / 4) :=
        b64DecodeCode_of_code _ (by omega)
      have hd2 : b64DecodeCode (b64CharCode (a % 4 * 16 + b / 16)) =
          some (a % 4 * 16 + b / 16) := b64DecodeCode_of_code _ (by omega)
      have hd3 : b64DecodeCode (b64CharCode (b % 16 * 4 + c / 64)) =
          some (b % 16 * 4 + c / 64) := b64DecodeCode_of_code _ (by omega)
      have hd4 : b64DecodeCode (b64CharCode (c % 64)) = some (c % 64) :=
        b64DecodeCode_of_code _ (by omega)
      have hne3 : b64CharCode (b % 16 * 4 + c / 64) ≠ 61 :=
        b64CharCode_ne_61 _ (by omega)
      have hne4 : b64CharCode (c % 64) ≠ 61 := b64CharCode_ne_61 _ (by omega)
      simp only [toTransportText, base64ToUint8Array, hd1, hd2, hd3, hd4,
        if_neg hne3, if_neg hne4, hrest]
      refine congrArg some ?_
      refine List.cons_eq_cons.mpr ⟨by omega, ?_⟩
      refine List.cons_eq_cons.mpr ⟨by omega, ?_⟩
      refine List.cons_eq_cons.mpr ⟨by omega, rfl⟩

/-- C8, witness: the round trip on the concrete byte sequence [0, 1, 255],
whose encoding ends in one padding character. -/
theorem base64_transport_roundtrip_witness :
    base64ToUint8Array (toTransportText [0, 1, 255]) = some [0, 1, 255] :=
  base64_transport_roundtrip [0, 1, 255] (by decide)

/-! ## Scheduler and session-controller lemmas and claim theorems -/

theorem msgStep_outCtxOpen (now : ℚ) (bytes : List ℕ) (s : CtrlState) :
    (msgStep now bytes s).outCtxOpen = s.outCtxOpen := by
  unfold msgStep
  split_ifs <;> rfl

theorem msgStep_cursor_open (now : ℚ) (bytes : List ℕ) (s : CtrlState)
    (h : s.outCtxOpen = true) :
    (msgStep now bytes s).cursor = max now s.cursor + segDur bytes := by
  simp [msgStep, h]

theorem msgStep_scheduled_open (now : ℚ) (bytes : List ℕ) (s : CtrlState)
    (h : s.outCtxOpen = true) :
    (msgStep now bytes s).scheduled =
      s.scheduled ++ [(max now s.cursor, decodeSamples bytes)] := by
  simp [msgStep, h]

/-- C1.  Every inbound segment is scheduled at
`startTime = max(currentOutputClockTime, cursor)` and the cursor advances to
`startTime + duration`; the cursor never decreases under any event of a
session (everything but `disconnect`); and three segments enqueued while
earlier audio is still playing (each arrival clock at most the cursor built
so far) start at `t0`, `t0 + d1`, `t0 + d1 + d2` — back to back, independent
of the arrival clocks. -/
theorem scheduler_gapless :
    (∀ (s : CtrlState) (now : ℚ) (bytes : List ℕ), s.outCtxOpen = true →
        (msgStep now bytes s).scheduled =
          s.scheduled ++ [(max now s.cursor, decodeSamples bytes)] ∧
        (msgStep now bytes s).cursor = max now s.cursor + segDur bytes) ∧
    (∀ (e : Ev) (s : CtrlState), e ≠ Ev.disconnect →
        s.cursor ≤ (step e s).cursor) ∧
    (∀ (s : CtrlState) (now1 now2 now3 : ℚ) (b1 b2 b3 : List ℕ),
        s.outCtxOpen = true →
        now2 ≤ max now1 s.cursor + segDur b1 →
        now3 ≤ max now1 s.cursor + segDur b1 + segDur b2 →
        (msgStep now3 b3 (msgStep now2 b2 (msgStep now1 b1 s))).scheduled.map
            Prod.fst =
          s.scheduled.map Prod.fst ++
            [max now1 s.cursor, max now1 s.cursor + segDur b1,
             max now1 s.cursor + segDur b1 + segDur b2]) := by
  refine ⟨?_, ?_, ?_⟩
  · intro s now bytes h
    exact ⟨msgStep_scheduled_open now bytes s h, msgStep_cursor_open now bytes s h⟩
  · intro e s he
    cases e with
    | connect => exact le_refl _
    | opened => exact le_refl _
    | message now bytes =>
        show s.cursor ≤ (msgStep now bytes s).cursor
        unfold msgStep
        split_ifs
        · have h1 := segDur_nonneg bytes
          have h2 := le_max_right now s.cursor
          show s.cursor ≤ max now s.cursor + segDur bytes
          linarith
        · exact le_refl _
    | ended now =>
        show s.cursor ≤ (endedStep now s).cursor
        unfold endedStep
        split_ifs <;> exact le_refl _
    | closed => exact le_refl _
    | errored => exact le_refl _
    | disconnect => exact absurd rfl he
  · intro s now1 now2 now3 b1 b2 b3 hctx h2 h3
    have ho1 : (msgStep now1 b1 s).outCtxOpen = true := by
      rw [msgStep_outCtxOpen]; exact hctx
    have ho2 : (msgStep now2 b2 (msgStep now1 b1 s)).outCtxOpen = true := by
      rw [msgStep_outCtxOpen]; exact ho1
    have hc1 : (msgStep now1 b1 s).cursor = max now1 s.cursor + segDur b1 :=
      msgStep_cursor_open now1 b1 s hctx
    have hst2 : max now2 (msgStep now1 b1 s).cursor =
        max now1 s.cursor + segDur b1 := by
      rw [hc1]; exact max_eq_right h2
    have hc2 : (msgStep now2 b2 (msgStep now1 b1 s)).cursor =
        max now1 s.cursor + segDur b1 + segDur b2 := by
      rw [msgStep_cursor_open now2 b2 _ ho1, hst2]
    have hst3 : max now3 (msgStep now2 b2 (msgStep now1 b1 s)).cursor =
        max now1 s.cursor + segDur b1 + segDur b2 := by
      rw [hc2]; exact max_eq_right h3
    rw [msgStep_scheduled_open now3 b3 _ ho2, msgStep_scheduled_open now2 b2 _ ho1,
        msgStep_scheduled_open now1 b1 s hctx, hst3, hst2]
    simp

/-- C1, witness: three one-sample segments (duration 1/24000 each) arriving
at jittered clocks 0, 1/48000, 1/24000 on a fresh connection are scheduled
at 0, 1/24000 and 2/24000. -/
theorem scheduler_gapless_witness :
    (msgStep (1/24000) [0, 0] (msgStep (1/48000) [0, 0] (msgStep 0 [0, 0]
        (connectStep initState)))).scheduled.map Prod.fst =
      [0, 1/24000, 1/12000] := by
  have h := scheduler_gapless.2.2 (connectStep initState) 0 (1/48000) (1/24000)
    [0, 0] [0, 0] [0, 0] rfl
    (by norm_num [connectStep, initState, segDur, numSamples])
    (by norm_num [connectStep, initState, segDur, numSamples])
  rw [h]
  norm_num [connectStep, initState, segDur, numSamples]

/-- C2, counterexample.  The claim says a message whose payload has odd byte
length is dropped with no cursor change and no audio scheduled.  The code
performs no such check: on the 3-byte payload [0, 128, 7] it decodes one
sample (ignoring the trailing byte), schedules it, and advances the cursor
from 0 to 1/24000. -/
theorem odd_payload_not_dropped_cex :
    ([0, 128, 7] : List ℕ).length % 2 = 1 ∧
    (msgStep 0 [0, 128, 7] (connectStep initState)).cursor = 1/24000 ∧
    ¬ (msgStep 0 [0, 128, 7] (connectStep initState)).cursor =
        (connectStep initState).cursor ∧
    (msgStep 0 [0, 128, 7] (connectStep initState)).scheduled =
      [(0, [(-1 : ℚ)])] := by
  have hdec : decodeSamples [0, 128, 7] = [(-1 : ℚ)] := by
    rw [show ([0, 128, 7] : List ℕ) = 0 :: 128 :: [7] from rfl,
        decodeSamples_cons2]
    have h16 : leInt16 0 128 = -32768 := by decide
    rw [h16]
    norm_num [decodeSamples, numSamples]
  have hcur : (msgStep 0 [0, 128, 7] (connectStep initState)).cursor =
      1/24000 := by
    rw [msgStep_cursor_open 0 [0, 128, 7] _ rfl]
    norm_num [connectStep, initState, segDur, numSamples]
  refine ⟨rfl, hcur, ?_, ?_⟩
  · rw [hcur]
    norm_num [connectStep, initState]
  · rw [msgStep_scheduled_open 0 [0, 128, 7] _ rfl, hdec]
    norm_num [connectStep, initState]

/-- C2, amended.  A message with an odd-length payload is not rejected: the
trailing byte is ignored, the remaining `⌊n/2⌋` little-endian 16-bit samples
are decoded and scheduled normally, the cursor advances by `⌊n/2⌋ / 24000`,
and the handler is total (the session does not crash); the speaking flag is
still raised. -/
theorem odd_payload_truncated (s : CtrlState) (now : ℚ) (bytes : List ℕ)
    (hctx : s.outCtxOpen = true) (hodd : bytes.length % 2 = 1) :
    (decodeSamples bytes).length = bytes.length / 2 ∧
    (msgStep now bytes s).scheduled =
      s.scheduled ++ [(max now s.cursor, decodeSamples bytes)] ∧
    (msgStep now bytes s).cursor =
      max now s.cursor + ((bytes.length / 2 : ℕ) : ℚ) / 24000 ∧
    (msgStep now bytes s).isSpeaking = true := by
  refine ⟨decodeSamples_length bytes, msgStep_scheduled_open now bytes s hctx,
    ?_, ?_⟩
  · rw [msgStep_cursor_open now bytes s hctx]
    rfl
  · unfold msgStep
    split_ifs <;> rfl

/-- C2, witness: the amended behaviour on the concrete odd payload
[0, 128, 7] on a fresh connection. -/
theorem odd_payload_truncated_witness :
    (decodeSamples [0, 128, 7]).length = 1 ∧
    (msgStep 0 [0, 128, 7] (connectStep initState)).isSpeaking = true := by
  have h := odd_payload_truncated (connectStep initState) 0 [0, 128, 7]
    rfl (by decide)
  exact ⟨h.1, h.2.2.2⟩

/-- C3, counterexample.  The claim says `connect()` while a session is
Active is rejected or ignored, with no second connection or audio context
created.  The code has no state guard: from the Active state (after
connect and open) a second `connect()` creates a second audio context and
initiates a second session. -/
theorem connect_from_active_cex :
    (step Ev.opened (step Ev.connect initState)).isConnected = true ∧
    (step Ev.opened (step Ev.connect initState)).sessionsCreated = 1 ∧
    (step Ev.connect (step Ev.opened (step Ev.connect initState))).sessionsCreated
      = 2 ∧
    (step Ev.connect (step Ev.opened (step Ev.connect initState))).contextsCreated
      = 2 := by
  refine ⟨rfl, rfl, rfl, rfl⟩

/-- C3, amended.  `connect()` performs no state check: invoked while a
session is Active it is not rejected — it creates one more output audio
context and initiates one more session, without closing the previous one,
so the at-most-one-active-session invariant is not enforced by the
controller itself (only by its caller). -/
theorem connect_unguarded (s : CtrlState) (h : s.isConnected = true) :
    (step Ev.connect s).sessionsCreated = s.sessionsCreated + 1 ∧
    (step Ev.connect s).contextsCreated = s.contextsCreated + 1 ∧
    (step Ev.connect s).outCtxOpen = true := by
  exact ⟨rfl, rfl, rfl⟩

/-- C3, witness: the amended statement applied in the Active state reached
by connect followed by open. -/
theorem connect_unguarded_witness :
    (step Ev.connect (step Ev.opened (step Ev.connect initState))).sessionsCreated
        = (step Ev.opened (step Ev.connect initState)).sessionsCreated + 1 ∧
    (step Ev.connect (step Ev.opened (step Ev.connect initState))).contextsCreated
        = (step Ev.opened (step Ev.connect initState)).contextsCreated + 1 ∧
    (step Ev.connect (step Ev.opened (step Ev.connect initState))).outCtxOpen
        = true :=
  connect_unguarded (step Ev.opened (step Ev.connect initState)) rfl

/-- C4.  `disconnect()` is idempotent and safe from any state: on the
never-connected Idle state it is exactly the identity (no error, no side
effect); applying it twice equals applying it once; and from any state —
in particular at the end of a connect → active → disconnect cycle — it
leaves the controller with `isConnected = false`, `isSpeaking = false` and
the playback cursor reset to 0. -/
theorem disconnect_idempotent_safe :
    step Ev.disconnect initState = initState ∧
    (∀ s : CtrlState,
      step Ev.disconnect (step Ev.disconnect s) = step Ev.disconnect s) ∧
    (∀ s : CtrlState,
      (step Ev.disconnect s).isConnected = false ∧
      (step Ev.disconnect s).isSpeaking = false ∧
      (step Ev.disconnect s).cursor = 0) ∧
    step Ev.disconnect (step Ev.opened (step Ev.connect initState)) =
      { initState with error := none, logs := ["Connected to Interviewer"],
                       contextsCreated := 1, sessionsCreated := 1 } := by
  refine ⟨rfl, fun s => rfl, fun s => ⟨rfl, rfl, rfl⟩, rfl⟩

/-- C5.  During a session (under message and playback-end events) the
speaking flag: becomes true whenever an audio segment is enqueued; a
playback-end event at a clock strictly before the cursor changes nothing
at all; and under every event except `disconnect`, the flag can only turn
false at a playback-end event whose clock has reached the cursor. -/
theorem speaking_flag_protocol :
    (∀ (s : CtrlState) (now : ℚ) (bytes : List ℕ),
        (msgStep now bytes s).isSpeaking = true) ∧
    (∀ (s : CtrlState) (now : ℚ), now < s.cursor → endedStep now s = s) ∧
    (∀ (e : Ev) (s : CtrlState), e ≠ Ev.disconnect →
        (step e s).isSpeaking = false →
        s.isSpeaking = false ∨ ∃ now, e = Ev.ended now ∧ s.cursor ≤ now) := by
  refine ⟨?_, ?_, ?_⟩
  · intro s now bytes
    unfold msgStep
    split_ifs <;> rfl
  · intro s now h
    unfold endedStep
    rw [if_neg (not_le.mpr h)]
  · intro e s he hf
    cases e with
    | connect => exact Or.inl hf
    | opened => exact Or.inl hf
    | message now bytes =>
        exact absurd hf (by show ¬(msgStep now bytes s).isSpeaking = false
                            unfold msgStep
                            split_ifs <;> simp)
    | ended now =>
        by_cases hc : s.cursor ≤ now
        · exact Or.inr ⟨now, rfl, hc⟩
        · have hstep : step (Ev.ended now) s = s := by
            show endedStep now s = s
            unfold endedStep
            rw [if_neg hc]
          rw [hstep] at hf
          exact Or.inl hf
    | closed => exact Or.inl hf
    | errored => exact Or.inl hf
    | disconnect => exact absurd rfl he

/-- C5, witness: a playback-end event at clock 1 with the cursor at 2 is a
no-op on a speaking state. -/
theorem speaking_flag_protocol_witness :
    endedStep 1 { initState with cursor := 2, isSpeaking := true } =
      { initState with cursor := 2, isSpeaking := true } :=
  speaking_flag_protocol.2.1 _ 1 (by norm_num [initState])

end LiveInterview

namespace GeminiService

/-- C10.  `searchJobs` always returns between 1 and 6 listings: every
grounding chunk whose web data has a truthy uri and title becomes one
listing, capped at 6 by `slice(0, 6)`; when no chunk qualifies it returns
exactly the single fallback listing that links to a web search for the
role. -/
theorem searchJobs_nonempty_capped (role location : String)
    (chunks : List GroundingChunk) :
    1 ≤ (searchJobs role location chunks).length ∧
    (searchJobs role location chunks).length ≤ 6 ∧
    (chunks.filter hasWebData = [] →
      searchJobs role location chunks = [fallbackListing role location]) ∧
    (chunks.filter hasWebData ≠ [] →
      searchJobs role location chunks =
        ((chunks.filter hasWebData).map (listingOfChunk location)).take 6 ∧
      (searchJobs role location chunks).length =
        min (chunks.filter hasWebData).length 6) := by
  by_cases hf : chunks.filter hasWebData = []
  · have hres : searchJobs role location chunks =
        [fallbackListing role location] := by
      unfold searchJobs
      rw [hf]
      rfl
    rw [hres]
    exact ⟨by norm_num, by norm_num, fun _ => rfl, fun hne => absurd hf hne⟩
  · have hne : ((chunks.filter hasWebData).map (listingOfChunk location)).take 6
        ≠ [] := by
      intro hcontra
      rcases List.take_eq_nil_iff.mp hcontra with h6 | hmap
      · exact absurd h6 (by norm_num)
      · exact hf (List.map_eq_nil_iff.mp hmap)
    have hres : searchJobs role location chunks =
        ((chunks.filter hasWebData).map (listingOfChunk location)).take 6 := by
      unfold searchJobs
      rw [if_neg (by simpa [List.isEmpty_iff] using hne)]
    have hlen : (searchJobs role location chunks).length =
        min (chunks.filter hasWebData).length 6 := by
      rw [hres, List.length_take, List.length_map, Nat.min_comm]
    have hpos : 1 ≤ (chunks.filter hasWebData).length :=
      List.length_pos.mpr hf
    refine ⟨?_, ?_, fun h => absurd h hf, fun _ => ⟨hres, hlen⟩⟩
    · rw [hlen]
      omega
    · rw [hlen]
      omega

/-- C10, witness: with no grounding chunks the fallback listing is
returned, and with one qualifying chunk exactly that chunk's listing is
returned. -/
theorem searchJobs_nonempty_capped_witness :
    searchJobs ("Engineer") ("Remote") [] =
      [fallbackListing ("Engineer") ("Remote")] ∧
    searchJobs ("Engineer") ("Remote")
        [⟨some ⟨some ("u"), some ("t")⟩⟩] =
      [listingOfChunk ("Remote") ⟨some ⟨some ("u"), some ("t")⟩⟩] := by
  constructor
  · exact (searchJobs_nonempty_capped ("Engineer") ("Remote") []).2.2.1 rfl
  · have h := (searchJobs_nonempty_capped ("Engineer") ("Remote")
      [⟨some ⟨some ("u"), some ("t")⟩⟩]).2.2.2 (by decide)
    rw [h.1]
    rfl

end GeminiService
